import Mathlib

/-!
# Pergola: ancestry walk, navigation state and inbound pump

A shallow embedding of the navigation code of `client/history.go`, the inbound
pump of `clientio/net.go` and the welcome consumer of `main.go`, followed by
the properties proved about them.

Conventions of the embedding:

* a Go pointer that may be nil is an `Option`;
* the set `map[string]struct{}` is a list of keys, observed through membership;
* a send on a channel is recorded in the list of values sent, in order; a send
  on a live channel completes (the consumers started in `main.go` drain their
  channels for ever), a send on a nil channel blocks for ever, as Go defines;
* the read/write lock of `ThreadView` has no sequential effect and is left out;
* Go ints are integers: `count` in `getItems` never exceeds 101, and the screen
  coordinates of `Layout` are terminal sizes, so no operation wraps.
-/

namespace Pergola

/-! ## Data model -/

/-- The message record of the arbor library, as far as this code reads it. -/
structure Message where
  UUID : String
  Parent : String
  Content : String
  deriving DecidableEq, Repr

/-- The store wrapper `Tree` is declared outside the files at hand; the code
uses its two lookups, which are taken as parameters. `Get` returns nil for an
id that is not held. -/
structure Tree where
  Get : String → Option Message
  Children : String → List String

/-- The struct `ThreadView` of history.go (the embedded lock left out). -/
structure ThreadView where
  CursorID : String
  ViewIDs : List String
  LeafID : String
  deriving DecidableEq, Repr

/-! ## The ancestry walk: `getItems` and `min` -/

/-- The constant `length` of `getItems`. -/
def length : Nat := 100

/-- The helper `min` of history.go, on Go ints. -/
def min (a b : Int) : Int :=
  if a < b then a else b

/-- The body of `for i := range items` in `getItems`, for the `n` iterations
that remain, the next one being iteration `i`. It yields the backing array,
`count`, and the ids sent on `Query`. -/
def getItemsLoop (get : String → Option Message) :
    Nat → Nat → List (Option Message) → Message → Int →
      List (Option Message) × Int × List String
  | 0, _, items, _, count => (items, count, [])
  | n + 1, i, items, current, count =>
    let items := items.set i (some current)
    if current.Parent = "" then
      (items, count, [])
    else
      let parent := current.Parent
      match get current.Parent with
      | none => (items, count, [parent])
      | some next => getItemsLoop get n (i + 1) items next (count + 1)

/-- The method `getItems`: the returned slice and the ids sent on `Query`. -/
def getItems (t : Tree) (s : ThreadView) : List (Option Message) × List String :=
  let items : List (Option Message) := List.replicate length none
  match t.Get s.LeafID with
  | none => (items.take 0, [])
  | some current =>
    let r := getItemsLoop t.Get items.length 0 items current 1
    (r.1.take (min r.2.1 (r.1.length : Int)).toNat, r.2.2)

/-! ## Navigation state: `UpdateMessage`, `Layout`, `Up` -/

/-- The method `UpdateMessage`: the new state and the ids its closing call of
`getItems` sends on `Query`. The result is `none` when `Get` returns nil, where
the Go code stops with a nil dereference at `msg.Parent`. -/
def UpdateMessage (t : Tree) (s : ThreadView) (id : String) :
    Option (ThreadView × List String) :=
  match t.Get id with
  | none => none
  | some msg =>
    let s1 : ThreadView :=
      if msg.Parent = s.LeafID ∨ s.LeafID = "" then { s with LeafID := msg.UUID } else s
    let s2 : ThreadView :=
      if s1.CursorID = "" then { s1 with CursorID := msg.UUID } else s1
    some (s2, (getItems t s2).2)

/-- A run of `UpdateMessage` calls, each against the store as it is at that
call; the result lists the state after each call. -/
def UpdateMessages (s : ThreadView) : List (Tree × String) → Option (List ThreadView)
  | [] => some []
  | (t, id) :: rest =>
    match UpdateMessage t s id with
    | none => none
    | some r =>
      match UpdateMessages r.1 rest with
      | none => none
      | some states => some (r.1 :: states)

/-- The errors of the gocui calls, as far as the code tells them apart. -/
inductive GuiError where
  | ErrUnknownView
  | other
  deriving DecidableEq, Repr

/-- The calls made on `*gocui.Gui`, each given by the error it returns (`none`
for nil). `DeleteView` and the writes into a view have no effect on the
navigation state and are left out. -/
structure Gui where
  Size : Int × Int
  SetView : String → Int → Int → Int → Int → Option GuiError
  SetCurrentView : String → Option GuiError

/-- How a call ends: it returns an error value (`none` for nil) or panics. -/
inductive Outcome where
  | returned (err : Option GuiError)
  | panicked
  deriving DecidableEq, Repr

/-- The state `Layout` leaves, the ids it sent on `Query`, and how it ended. -/
structure LayoutResult where
  state : ThreadView
  queries : List String
  outcome : Outcome
  deriving DecidableEq, Repr

/-- The loop `for _, item := range items` of `Layout`: the keys of `ViewIDs`
after it, or `none` when it panics (`log.Panicln`, or a nil item). -/
def layoutItems (ui : Gui) (maxX : Int) :
    List (Option Message) → Int → List String → Option (List String)
  | [], _, views => some views
  | item :: rest, currentY, views =>
    let height : Int := 2
    if currentY < 4 then
      some views
    else
      match item with
      | none => none
      | some item =>
        match ui.SetView item.UUID 0 (currentY - height) (maxX - 1) currentY with
        | some GuiError.other => none
        | _ => layoutItems ui maxX rest (currentY - (height + 1)) (item.UUID :: views)

/-- The method `Layout`. -/
def Layout (t : Tree) (ui : Gui) (s : ThreadView) : LayoutResult :=
  let s1 : ThreadView := { s with ViewIDs := [] }
  let maxX := ui.Size.1
  let maxY := ui.Size.2
  let inputUX : Int := 0
  let inputUY : Int := maxY - 4
  let inputW : Int := maxX - 1
  let inputH : Int := 3
  match ui.SetView "message-input" inputUX inputUY (inputUX + inputW) (inputUY + inputH) with
  | some GuiError.other => ⟨s1, [], Outcome.returned (some GuiError.other)⟩
  | _ =>
    let items := getItems t s1
    let currentY : Int := inputUY - 1
    match layoutItems ui maxX items.1 currentY s1.ViewIDs with
    | none => ⟨s1, items.2, Outcome.panicked⟩
    | some views =>
      let s2 : ThreadView := { s1 with ViewIDs := views }
      if s2.CursorID ∈ s2.ViewIDs then
        ⟨s2, items.2, Outcome.returned (ui.SetCurrentView s2.CursorID)⟩
      else if s2.LeafID ≠ "" then
        ⟨{ s2 with CursorID := s2.LeafID }, items.2,
          Outcome.returned (ui.SetCurrentView s2.LeafID)⟩
      else
        ⟨s2, items.2, Outcome.returned none⟩

/-- The method `Up`: the new state and the error returned (`none` for nil). -/
def Up (t : Tree) (ui : Gui) (s : ThreadView) : ThreadView × Option GuiError :=
  let s : ThreadView := if s.CursorID = "" then { s with CursorID := s.LeafID } else s
  match t.Get s.CursorID with
  | none => ({ s with CursorID := s.LeafID }, none)
  | some msg =>
    if msg.Parent = "" then
      ({ s with CursorID := s.LeafID }, none)
    else if msg.Parent ∉ s.ViewIDs then
      ({ s with CursorID := s.LeafID }, none)
    else
      ({ s with CursorID := msg.Parent }, ui.SetCurrentView msg.Parent)

/-- The method `Down`: it only gives an empty cursor the leaf, and returns nil. -/
def Down (s : ThreadView) : ThreadView × Option GuiError :=
  let s : ThreadView := if s.CursorID = "" then { s with CursorID := s.LeafID } else s
  (s, none)

/-- The navigation state `NewList` creates: no leaf, no cursor, no views. -/
def NewList : ThreadView :=
  { LeafID := "", CursorID := "", ViewIDs := [] }

/-- The navigation states the methods of history.go produce from the state of
`NewList`, each call made against a store that satisfies `P`. The state a
`Layout` leaves counts however it ends. -/
inductive Reachable (P : Tree → Prop) : ThreadView → Prop where
  | newList : Reachable P NewList
  | updateMessage (t : Tree) (s : ThreadView) (id : String) (r : ThreadView × List String) :
      Reachable P s → P t → UpdateMessage t s id = some r → Reachable P r.1
  | layout (t : Tree) (ui : Gui) (s : ThreadView) :
      Reachable P s → P t → Reachable P (Layout t ui s).state
  | up (t : Tree) (ui : Gui) (s : ThreadView) :
      Reachable P s → P t → Reachable P (Up t ui s).1
  | down (s : ThreadView) :
      Reachable P s → Reachable P (Down s).1

/-! ## The inbound pump `HandleNewMessages` and the welcome consumer -/

/-- The chat message of the arbor-go library; the pump only passes it on. -/
structure ChatMessage where
  UUID : String
  Parent : String
  Content : String
  deriving DecidableEq, Repr

/-- The values of the `Type` field: the three constants of the arbor-go
library and any other value. -/
inductive MessageType where
  | WelcomeType
  | QueryType
  | NewMessageType
  | unknown (code : Nat)
  deriving DecidableEq, Repr

/-- The protocol message of the arbor-go library, as far as this code reads
it; the embedded `*ChatMessage` may be nil. -/
structure ProtocolMessage where
  Type_ : MessageType
  Root : String
  Recent : List String
  ChatMessage : Option ChatMessage
  deriving DecidableEq, Repr

/-- What an observer of `HandleNewMessages` sees: the values sent on each
channel in order, which channels were closed, and whether the goroutine is
parked for ever in a send on a nil channel. -/
structure Pump where
  welcomes : List ProtocolMessage
  welcomesClosed : Bool
  msgs : List (Option ChatMessage)
  msgsClosed : Bool
  blocked : Bool
  deriving DecidableEq, Repr

/-- The loop `for fromServer := range readMessages` together with the deferred
`close(msgs)`. `live` is false once the local variable `welcomes` is nil. -/
def pumpLoop : List ProtocolMessage → Bool → Pump → Pump
  | [], _, p => { p with msgsClosed := true }
  | fromServer :: rest, live, p =>
    match fromServer.Type_ with
    | MessageType.WelcomeType =>
      if live then
        pumpLoop rest false
          { p with welcomes := p.welcomes ++ [fromServer], welcomesClosed := true }
      else
        { p with blocked := true }
    | MessageType.NewMessageType =>
      pumpLoop rest live { p with msgs := p.msgs ++ [fromServer.ChatMessage] }
    | _ => pumpLoop rest live p

/-- The function `HandleNewMessages`, run on the events the message reader
yields before the stream ends, with a live `welcomes` channel as in main.go. -/
def HandleNewMessages (readMessages : List ProtocolMessage) : Pump :=
  pumpLoop readMessages true ⟨[], false, [], false, false⟩

/-- The loop `for _, recentID := range recents` of the welcome consumer in
main.go: the ids it sends on `queries`. -/
def sendRecents : List String → List String
  | [] => []
  | recentID :: rest =>
    if recentID ≠ "" then recentID :: sendRecents rest else sendRecents rest

/-- The body of the welcome consumer in main.go for one message: the ids sent
on `queries`, in order. -/
def handleWelcome (message : ProtocolMessage) : List String :=
  let rootID := message.Root
  let recents := message.Recent
  rootID :: sendRecents recents

/-! ## Concrete stores and states used in the examples -/

/-- A store given by the list of messages it holds, looked up by UUID. -/
def treeOf (held : List Message) : Tree where
  Get := fun id => held.find? (fun m => m.UUID = id)
  Children := fun id => (held.filter (fun m => m.Parent = id)).map (fun m => m.UUID)

/-- A Gui of the given size whose calls all succeed. -/
def okGui (maxX maxY : Int) : Gui where
  Size := (maxX, maxY)
  SetView := fun _ _ _ _ _ => none
  SetCurrentView := fun _ => none

def msgA : Message := ⟨"A", "", "root"⟩

def msgB : Message := ⟨"B", "A", "reply"⟩

def msgC : Message := ⟨"C", "B", "reply to the reply"⟩

def msgX : Message := ⟨"X", "P", "elsewhere"⟩

/-- A message that is its own parent. -/
def msgLoop : Message := ⟨"A", "A", "loop"⟩

/-- Proof device: the messages the loop of `getItems` visits in `n` iterations
starting at `current`, and the ids it sends. -/
def visited (get : String → Option Message) : Nat → Message → List Message × List String
  | 0, _ => ([], [])
  | n + 1, current =>
    if current.Parent = "" then ([current], [])
    else
      match get current.Parent with
      | none => ([current], [current.Parent])
      | some next => (current :: (visited get n next).1, (visited get n next).2)

theorem visited_length_le (get : String → Option Message) (n : Nat) (current : Message) :
    (visited get n current).1.length ≤ n := by
  induction n generalizing current with
  | zero => simp [visited]
  | succ n ih =>
    unfold visited
    split
    · simp
    · split
      · simp
      · rename_i next _
        have := ih next
        simp only [List.length_cons]
        omega

theorem take_succ_set {α : Type} (l : List α) (i : Nat) (x : α) (h : i < l.length) :
    (l.set i x).take (i + 1) = l.take i ++ [x] := by
  induction l generalizing i with
  | nil => simp at h
  | cons a l ih =>
    cases i with
    | zero => simp
    | succ i =>
      simp only [List.length_cons, Nat.add_lt_add_iff_right] at h
      simp [ih i h]

theorem visited_cycle_length (get : String → Option Message) (m : Message)
    (hp : m.Parent ≠ "") (hg : get m.Parent = some m) (n : Nat) :
    (visited get n m).1.length = n := by
  induction n with
  | zero => simp [visited]
  | succ n ih => simp [visited, hp, hg, ih]

theorem getItemsLoop_spec (get : String → Option Message) (n i : Nat)
    (items : List (Option Message)) (current : Message)
    (hlen : items.length = i + n) :
    let r := getItemsLoop get n i items current (i + 1)
    let w := visited get n current
    r.1.take (min r.2.1 (r.1.length : Int)).toNat = items.take i ++ w.1.map some
      ∧ r.2.2 = w.2 := by
  induction n generalizing i items current with
  | zero =>
    simp only [getItemsLoop, visited, List.map_nil, List.append_nil, and_true]
    have : (min ((i : Int) + 1) (items.length : Int)).toNat = i := by
      unfold min; rw [hlen]; split <;> omega
    rw [this]
  | succ n ih =>
    have hi : i < items.length := by omega
    have htake : (items.set i (some current)).take (i + 1) = items.take i ++ [some current] :=
      take_succ_set items i (some current) hi
    unfold getItemsLoop visited
    simp only
    split
    · simp only [List.map_cons, List.map_nil, and_true]
      have : (min ((i : Int) + 1) ((items.set i (some current)).length : Int)).toNat = i + 1 := by
        unfold min; rw [List.length_set, hlen]; split <;> omega
      rw [this, htake]
    · split
      · simp only [List.map_cons, List.map_nil, and_true]
        have : (min ((i : Int) + 1) ((items.set i (some current)).length : Int)).toNat
            = i + 1 := by
          unfold min; rw [List.length_set, hlen]; split <;> omega
        rw [this, htake]
      · rename_i next _
        have h := ih (i + 1) (items.set i (some current)) next (by rw [List.length_set]; omega)
        simp only at h
        have hc : ((i : Int) + 1 + 1) = (((i + 1 : Nat) : Int) + 1) := by push_cast; ring
        rw [hc]
        refine ⟨?_, h.2⟩
        rw [h.1, htake]
        simp

/-- The slice `getItems` returns holds the visited messages, none of them nil,
and the ids sent are those of the visit. -/
theorem getItems_eq (t : Tree) (s : ThreadView) :
    getItems t s =
      match t.Get s.LeafID with
      | none => ([], [])
      | some current =>
        ((visited t.Get length current).1.map some, (visited t.Get length current).2) := by
  unfold getItems
  cases hg : t.Get s.LeafID with
  | none => simp
  | some current =>
    have h := getItemsLoop_spec t.Get length 0 (List.replicate length none) current (by simp)
    simp only [List.take_zero, List.nil_append, Nat.cast_zero, zero_add,
      List.length_replicate] at h ⊢
    rw [h.1, h.2]

theorem visited_head (get : String → Option Message) (n : Nat) (current b : Message)
    (h : (visited get n current).1[0]? = some b) : b = current := by
  cases n with
  | zero => simp [visited] at h
  | succ n =>
    unfold visited at h
    split at h
    · simpa using h.symm
    · split at h
      · simpa using h.symm
      · simpa using h.symm

theorem visited_linked (get : String → Option Message)
    (hget : ∀ id m, get id = some m → m.UUID = id) (n : Nat) (current : Message) :
    ∀ i a b, (visited get n current).1[i]? = some a →
      (visited get n current).1[i + 1]? = some b → a.Parent = b.UUID := by
  induction n generalizing current with
  | zero => intro i a b h; simp [visited] at h
  | succ n ih =>
    intro i a b ha hb
    by_cases hp : current.Parent = ""
    · simp [visited, hp] at hb
    · cases hnext : get current.Parent with
      | none => simp [visited, hp, hnext] at hb
      | some next =>
        simp only [visited, hp, if_false, hnext] at ha hb
        simp only [List.getElem?_cons_succ] at hb
        cases i with
        | zero =>
          simp only [List.getElem?_cons_zero, Option.some.injEq] at ha
          have hb2 := visited_head get n next b hb
          rw [hb2, ← ha]
          exact (hget _ _ hnext).symm
        | succ i =>
          simp only [List.getElem?_cons_succ] at ha
          exact ih next i a b ha hb

theorem visited_query (get : String → Option Message) (n : Nat) (current : Message) :
    ((visited get n current).2 = [] ∧
      ∀ last, (visited get n current).1.getLast? = some last →
        last.Parent = "" ∨ get last.Parent ≠ none) ∨
    (∃ last, (visited get n current).1.getLast? = some last ∧ last.Parent ≠ "" ∧
      get last.Parent = none ∧ (visited get n current).2 = [last.Parent]) := by
  induction n generalizing current with
  | zero => left; simp [visited]
  | succ n ih =>
    unfold visited
    split
    · rename_i hp
      left
      simp [hp]
    · rename_i hp
      split
      · rename_i hnone
        right
        exact ⟨current, by simp, hp, hnone, rfl⟩
      · rename_i next hnext
        simp only
        rcases ih next with ⟨hq, hl⟩ | ⟨last, hlast, h1, h2, h3⟩
        · left
          refine ⟨hq, ?_⟩
          intro last hlast
          rw [List.getLast?_cons] at hlast
          cases hv : (visited get n next).1.getLast? with
          | none =>
            rw [hv] at hlast
            simp only [Option.getD_none, Option.some.injEq] at hlast
            right
            rw [← hlast, hnext]
            simp
          | some l =>
            rw [hv] at hlast
            simp only [Option.getD_some, Option.some.injEq] at hlast
            exact hl last (by rw [hv, hlast])
        · right
          refine ⟨last, ?_, h1, h2, h3⟩
          rw [List.getLast?_cons, hlast]
          rfl

theorem visited_root_no_query (get : String → Option Message) (n : Nat) (current : Message) :
    ∀ m ∈ (visited get n current).1, m.Parent = "" → (visited get n current).2 = [] := by
  induction n generalizing current with
  | zero => intro m hm; simp [visited] at hm
  | succ n ih =>
    intro m hm hroot
    unfold visited at hm ⊢
    split
    · rfl
    · rename_i hp
      split
      · rename_i hnone
        simp only [hp, if_false, hnone, List.mem_singleton] at hm
        exact absurd (hm ▸ hroot) hp
      · rename_i next hnext
        simp only [hp, if_false, hnext, List.mem_cons] at hm
        rcases hm with hm | hm
        · exact absurd (hm ▸ hroot) hp
        · exact ih next m hm hroot

theorem visited_first (get : String → Option Message) (n : Nat) (current : Message) :
    (visited get (n + 1) current).1[0]? = some current := by
  unfold visited
  split
  · simp
  · split <;> simp

theorem visited_climbs (get : String → Option Message) (n : Nat) (current : Message) :
    ∀ (i : Nat) (a : Message), (visited get n current).1[i]? = some a →
      i + 1 < (visited get n current).1.length →
      a.Parent ≠ "" ∧ (visited get n current).1[i + 1]? = get a.Parent := by
  induction n generalizing current with
  | zero => intro i a h; simp [visited] at h
  | succ n ih =>
    intro i a ha hi
    by_cases hp : current.Parent = ""
    · simp [visited, hp] at hi
    · cases hnext : get current.Parent with
      | none => simp [visited, hp, hnext] at hi
      | some next =>
        simp only [visited, hp, if_false, hnext, List.length_cons] at ha hi ⊢
        cases i with
        | zero =>
          simp only [List.getElem?_cons_zero, Option.some.injEq] at ha
          subst ha
          refine ⟨hp, ?_⟩
          simp only [List.getElem?_cons_succ, hnext]
          cases n with
          | zero => simp [visited] at hi
          | succ k => exact visited_first get k next
        | succ i =>
          simp only [List.getElem?_cons_succ] at ha ⊢
          exact ih next i a ha (by omega)

theorem visited_stops (get : String → Option Message) (n : Nat) (current : Message) :
    ∀ last, (visited get n current).1.getLast? = some last →
      (visited get n current).1.length = n ∨ last.Parent = "" ∨ get last.Parent = none := by
  induction n generalizing current with
  | zero => intro last h; simp [visited] at h
  | succ n ih =>
    intro last hlast
    by_cases hp : current.Parent = ""
    · simp only [visited, hp, if_true, List.getLast?_singleton, Option.some.injEq] at hlast
      right; left
      rw [← hlast]; exact hp
    · cases hnext : get current.Parent with
      | none =>
        simp only [visited, hp, if_false, hnext, List.getLast?_singleton,
          Option.some.injEq] at hlast
        right; right
        rw [← hlast]; exact hnext
      | some next =>
        simp only [visited, hp, if_false, hnext, List.length_cons] at hlast ⊢
        rw [List.getLast?_cons] at hlast
        cases hv : (visited get n next).1.getLast? with
        | none =>
          left
          have hnil : (visited get n next).1 = [] := List.getLast?_eq_none_iff.mp hv
          cases n with
          | zero => simp [visited]
          | succ k =>
            have := visited_first get k next
            rw [hnil] at this
            simp at this
        | some l =>
          rw [hv] at hlast
          simp only [Option.getD_some, Option.some.injEq] at hlast
          rcases ih next l hv with h | h | h
          · left; omega
          · right; left; rw [← hlast]; exact h
          · right; right; rw [← hlast]; exact h

theorem getItems_query (t : Tree) (s : ThreadView) :
    ((getItems t s).2 = [] ∧
      ∀ last, (getItems t s).1.getLast? = some (some last) →
        last.Parent = "" ∨ t.Get last.Parent ≠ none) ∨
    (∃ last, (getItems t s).1.getLast? = some (some last) ∧ last.Parent ≠ "" ∧
      t.Get last.Parent = none ∧ (getItems t s).2 = [last.Parent]) := by
  rw [getItems_eq]
  cases hg : t.Get s.LeafID with
  | none => left; simp
  | some current =>
    simp only [List.getLast?_map]
    rcases visited_query t.Get length current with ⟨hq, hl⟩ | ⟨last, hlast, h1, h2, h3⟩
    · left
      refine ⟨hq, ?_⟩
      intro last hlast
      apply hl last
      cases hv : (visited t.Get length current).1.getLast? with
      | none => rw [hv] at hlast; simp at hlast
      | some l => rw [hv] at hlast; simpa using hlast
    · right
      exact ⟨last, by rw [hlast]; rfl, h1, h2, h3⟩

theorem treeOf_get_uuid (held : List Message) :
    ∀ id m, (treeOf held).Get id = some m → m.UUID = id := by
  intro id m h
  have := List.find?_some h
  simpa using this

/-! ## The ancestry walk -/

/-- C1: the slice returned by `getItems` has at most 100 entries, none of them
nil, and when `Get id` only returns a message whose UUID is `id`, every entry
has as its Parent the UUID of the entry after it. Nothing is assumed about the
parent links of the store, so cycles and chains longer than 100 are covered. -/
theorem getItems_bounded_and_linked (t : Tree) (s : ThreadView) :
    (getItems t s).1.length ≤ 100 ∧
    (∀ x ∈ (getItems t s).1, x ≠ none) ∧
    ((∀ id m, t.Get id = some m → m.UUID = id) →
      ∀ i, i + 1 < (getItems t s).1.length →
        ∃ a b, (getItems t s).1[i]? = some (some a) ∧
          (getItems t s).1[i + 1]? = some (some b) ∧ a.Parent = b.UUID) := by
  rw [getItems_eq]
  cases hg : t.Get s.LeafID with
  | none => simp
  | some current =>
    simp only [List.length_map, List.mem_map, forall_exists_index, and_imp,
      List.getElem?_map]
    refine ⟨visited_length_le t.Get length current, ?_, ?_⟩
    · intro x m _ hx
      rw [← hx]
      simp
    · intro hget i hi
      have h0 : i < (visited t.Get length current).1.length := by omega
      refine ⟨(visited t.Get length current).1[i], (visited t.Get length current).1[i + 1],
        ?_, ?_, ?_⟩
      · rw [List.getElem?_eq_getElem h0]; rfl
      · rw [List.getElem?_eq_getElem hi]; rfl
      · exact visited_linked t.Get hget length current i _ _
          (List.getElem?_eq_getElem h0) (List.getElem?_eq_getElem hi)

/-- A store whose only message is its own parent: the walk from it stops
after 100 entries, each linked to the next. -/
theorem getItems_bounded_and_linked_witness :
    (getItems (treeOf [msgLoop]) ⟨"", [], "A"⟩).1.length = 100 ∧
    ∀ i, i + 1 < (getItems (treeOf [msgLoop]) ⟨"", [], "A"⟩).1.length →
      ∃ a b, (getItems (treeOf [msgLoop]) ⟨"", [], "A"⟩).1[i]? = some (some a) ∧
        (getItems (treeOf [msgLoop]) ⟨"", [], "A"⟩).1[i + 1]? = some (some b) ∧
        a.Parent = b.UUID :=
  ⟨by
      have hg : (treeOf [msgLoop]).Get "A" = some msgLoop := by decide
      rw [getItems_eq, hg]
      simp only [List.length_map]
      exact visited_cycle_length _ msgLoop (by decide) hg length,
    (getItems_bounded_and_linked (treeOf [msgLoop]) ⟨"", [], "A"⟩).2.2
      (treeOf_get_uuid _)⟩

/-- C2: one walk of `getItems` sends at most one id on `Query`. The returned
slice is the chain from the leaf: it starts at the message of LeafID, every
entry but the last has a non-empty Parent that the store holds and that is the
next entry, and the slice ends only when it has 100 entries, or at an entry
with empty Parent, or at an entry whose Parent the store does not hold. An id
is sent exactly in that last case (the slice is non-empty and the Parent of its
last entry is non-empty and not in the store), and the id sent is that Parent,
the first ancestor of the leaf that is not resolved. Nothing is sent when the
leaf is not in the store (the slice is then empty) or when an entry with empty
Parent is reached. With a store holding only B, whose Parent is A, the walk
from B returns B alone and asks for A; with C, a child of B, held as well, the
walk from C returns C, B and asks for A. -/
theorem getItems_query_at_most_one (t : Tree) (s : ThreadView) :
    (getItems t s).2.length ≤ 1 ∧
    ((getItems t s).2 ≠ [] ↔
      ∃ last, (getItems t s).1.getLast? = some (some last) ∧ last.Parent ≠ "" ∧
        t.Get last.Parent = none) ∧
    (∀ last, (getItems t s).1.getLast? = some (some last) → last.Parent ≠ "" →
      t.Get last.Parent = none → (getItems t s).2 = [last.Parent]) ∧
    (t.Get s.LeafID = none → getItems t s = ([], [])) ∧
    (∀ m, some m ∈ (getItems t s).1 → m.Parent = "" → (getItems t s).2 = []) ∧
    (∀ current, t.Get s.LeafID = some current →
      (getItems t s).1[0]? = some (some current)) ∧
    (∀ (i : Nat) (a : Message), (getItems t s).1[i]? = some (some a) →
      i + 1 < (getItems t s).1.length →
      a.Parent ≠ "" ∧ t.Get a.Parent ≠ none ∧
        (getItems t s).1[i + 1]? = some (t.Get a.Parent)) ∧
    (∀ last, (getItems t s).1.getLast? = some (some last) →
      (getItems t s).1.length = 100 ∨ last.Parent = "" ∨ t.Get last.Parent = none) ∧
    getItems (treeOf [msgB]) ⟨"", [], "B"⟩ = ([some msgB], ["A"]) ∧
    getItems (treeOf [msgB, msgC]) ⟨"", [], "C"⟩ = ([some msgC, some msgB], ["A"]) := by
  refine ⟨?_, ?_, ?_, ?_, ?_, ?_, ?_, ?_, by decide, by decide⟩
  · rcases getItems_query t s with ⟨hq, _⟩ | ⟨last, _, _, _, hq⟩ <;> simp [hq]
  · constructor
    · intro hne
      rcases getItems_query t s with ⟨hq, _⟩ | ⟨last, hlast, h1, h2, _⟩
      · exact absurd hq hne
      · exact ⟨last, hlast, h1, h2⟩
    · rintro ⟨last, hlast, h1, h2⟩
      rcases getItems_query t s with ⟨_, hl⟩ | ⟨_, _, _, _, hq⟩
      · rcases hl last hlast with h | h
        · exact absurd h h1
        · exact absurd h2 h
      · simp [hq]
  · intro last hlast h1 h2
    rcases getItems_query t s with ⟨_, hl⟩ | ⟨last2, hlast2, _, _, hq⟩
    · rcases hl last hlast with h | h
      · exact absurd h h1
      · exact absurd h2 h
    · rw [hlast] at hlast2
      simp only [Option.some.injEq] at hlast2
      rw [hlast2, hq]
  · intro hnone
    rw [getItems_eq, hnone]
  · intro m hm hroot
    rw [getItems_eq] at hm ⊢
    cases hg : t.Get s.LeafID with
    | none => rfl
    | some current =>
      rw [hg] at hm
      simp only [List.mem_map, Option.some.injEq, exists_eq_right] at hm
      exact visited_root_no_query t.Get length current m hm hroot
  · intro current hg
    rw [getItems_eq, hg]
    simp only [List.getElem?_map]
    have := visited_first t.Get 99 current
    change (visited t.Get length current).1[0]? = some current at this
    rw [this]
    rfl
  · intro i a ha hi
    rw [getItems_eq] at ha hi ⊢
    cases hg : t.Get s.LeafID with
    | none => rw [hg] at ha; simp at ha
    | some current =>
      rw [hg] at ha hi
      simp only [List.getElem?_map, List.length_map] at ha hi ⊢
      have ha2 : (visited t.Get length current).1[i]? = some a := by
        cases hv : (visited t.Get length current).1[i]? with
        | none => rw [hv] at ha; simp at ha
        | some x => rw [hv] at ha; simpa using ha
      obtain ⟨hp, hnext⟩ := visited_climbs t.Get length current i a ha2 hi
      have hsome : ∃ b, (visited t.Get length current).1[i + 1]? = some b :=
        ⟨_, List.getElem?_eq_getElem hi⟩
      obtain ⟨b, hb⟩ := hsome
      rw [hb] at hnext
      refine ⟨hp, ?_, ?_⟩
      · rw [← hnext]; simp
      · rw [hb, ← hnext]; rfl
  · intro last hlast
    rw [getItems_eq] at hlast ⊢
    cases hg : t.Get s.LeafID with
    | none => rw [hg] at hlast; simp at hlast
    | some current =>
      rw [hg] at hlast
      simp only [List.getLast?_map, List.length_map] at hlast ⊢
      have hl2 : (visited t.Get length current).1.getLast? = some last := by
        cases hv : (visited t.Get length current).1.getLast? with
        | none => rw [hv] at hlast; simp at hlast
        | some x => rw [hv] at hlast; simpa using hlast
      exact visited_stops t.Get length current last hl2

/-! ## Navigation state -/

theorem UpdateMessage_step (t : Tree) (s : ThreadView) (id : String) (M : Message)
    (hheld : t.Get id = some M) :
    ∃ s' qs, UpdateMessage t s id = some (s', qs) ∧
      (M.Parent = s.LeafID ∨ s.LeafID = "" → s'.LeafID = M.UUID) ∧
      (¬ (M.Parent = s.LeafID ∨ s.LeafID = "") → s'.LeafID = s.LeafID) := by
  unfold UpdateMessage
  rw [hheld]
  refine ⟨_, _, rfl, ?_, ?_⟩
  · intro h
    simp only [h, if_true]
    split <;> rfl
  · intro h
    simp only [h, if_false]
    split <;> rfl

theorem UpdateMessages_steps (steps : List (Tree × Message))
    (hheld : ∀ p ∈ steps, p.1.Get p.2.UUID = some p.2) (s : ThreadView) :
    ∃ states, UpdateMessages s (steps.map (fun p => (p.1, p.2.UUID))) = some states ∧
      states.length = steps.length ∧
      ∀ (i : Nat) (prev next : ThreadView) (p : Tree × Message),
        (s :: states)[i]? = some prev → states[i]? = some next →
        steps[i]? = some p →
        (p.2.Parent = prev.LeafID ∨ prev.LeafID = "" → next.LeafID = p.2.UUID) ∧
        (¬ (p.2.Parent = prev.LeafID ∨ prev.LeafID = "") → next.LeafID = prev.LeafID) := by
  induction steps generalizing s with
  | nil => exact ⟨[], rfl, rfl, by intro i prev next p _ _ h; simp at h⟩
  | cons q rest ih =>
    obtain ⟨s', qs, hstep, hyes, hno⟩ :=
      UpdateMessage_step q.1 s q.2.UUID q.2 (hheld q (List.mem_cons_self _ _))
    obtain ⟨states, hrun, hlen, hall⟩ :=
      ih (fun p hp => hheld p (List.mem_cons_of_mem _ hp)) s'
    refine ⟨s' :: states, ?_, by simp [hlen], ?_⟩
    · simp only [List.map_cons, UpdateMessages, hstep, hrun]
    · intro i prev next p hprev hnext hp
      cases i with
      | zero =>
        simp only [List.getElem?_cons_zero, Option.some.injEq] at hprev hnext hp
        subst hprev hnext hp
        exact ⟨hyes, hno⟩
      | succ i =>
        simp only [List.getElem?_cons_succ] at hprev hnext hp
        exact hall i prev next p hprev hnext hp

/-- C3: when the store holds M, `UpdateMessage M.UUID` returns, and afterwards
LeafID is M.UUID if M.Parent was the previous LeafID or the previous LeafID was
empty, and is unchanged otherwise. Hence in every run of such calls, each
against a store holding its message, every call leaves the leaf as it was or
moves it to a message whose Parent is the leaf before the call (or the leaf
before the call was empty). -/
theorem UpdateMessage_leaf_monotone (t : Tree) (s : ThreadView) (M : Message)
    (hheld : t.Get M.UUID = some M) :
    (∃ s' qs, UpdateMessage t s M.UUID = some (s', qs) ∧
      (M.Parent = s.LeafID ∨ s.LeafID = "" → s'.LeafID = M.UUID) ∧
      (¬ (M.Parent = s.LeafID ∨ s.LeafID = "") → s'.LeafID = s.LeafID)) ∧
    (∀ steps : List (Tree × Message), (∀ p ∈ steps, p.1.Get p.2.UUID = some p.2) →
      ∃ states, UpdateMessages s (steps.map (fun p => (p.1, p.2.UUID))) = some states ∧
        states.length = steps.length ∧
        ∀ (i : Nat) (prev next : ThreadView) (p : Tree × Message),
        (s :: states)[i]? = some prev → states[i]? = some next →
          steps[i]? = some p →
          (p.2.Parent = prev.LeafID ∨ prev.LeafID = "" → next.LeafID = p.2.UUID) ∧
          (¬ (p.2.Parent = prev.LeafID ∨ prev.LeafID = "") →
            next.LeafID = prev.LeafID)) :=
  ⟨UpdateMessage_step t s M.UUID M hheld, fun steps h => UpdateMessages_steps steps h s⟩

/-- The leaf is A; B, a child of A, moves the leaf to B, and X, a child of
neither, leaves it at B. -/
theorem UpdateMessage_leaf_monotone_witness :
    (treeOf [msgA, msgB, msgX]).Get msgB.UUID = some msgB ∧
    UpdateMessages ⟨"A", [], "A"⟩
      [(treeOf [msgA, msgB, msgX], "B"), (treeOf [msgA, msgB, msgX], "X")]
      = some [⟨"A", [], "B"⟩, ⟨"A", [], "B"⟩] ∧
    ∃ s' qs, UpdateMessage (treeOf [msgA, msgB, msgX]) ⟨"A", [], "A"⟩ msgB.UUID = some (s', qs) ∧
      (msgB.Parent = "A" ∨ "A" = "" → s'.LeafID = msgB.UUID) ∧
      (¬ (msgB.Parent = "A" ∨ "A" = "") → s'.LeafID = "A") :=
  ⟨by decide, by decide,
    (UpdateMessage_leaf_monotone (treeOf [msgA, msgB, msgX]) ⟨"A", [], "A"⟩ msgB
      (by decide)).1⟩

/-- What `UpdateMessage` does to the cursor: an empty CursorID becomes the UUID
of the message, a non-empty one is kept. -/
theorem UpdateMessage_cursor (t : Tree) (s : ThreadView) (id : String) (M : Message)
    (hheld : t.Get id = some M) :
    ∃ s' qs, UpdateMessage t s id = some (s', qs) ∧
      (s.CursorID = "" → s'.CursorID = M.UUID) ∧
      (s.CursorID ≠ "" → s'.CursorID = s.CursorID) := by
  unfold UpdateMessage
  rw [hheld]
  refine ⟨_, _, rfl, ?_, ?_⟩
  · intro h
    split <;> simp_all
  · intro h
    split <;> simp_all

/-- The leaf and cursor `Layout` leaves, however it ends: the leaf is kept, and
the cursor is kept or is the non-empty leaf. -/
theorem Layout_state_cases (t : Tree) (ui : Gui) (s : ThreadView) :
    (Layout t ui s).state.LeafID = s.LeafID ∧
    ((Layout t ui s).state.CursorID = s.CursorID ∨
      ((Layout t ui s).state.CursorID = s.LeafID ∧ s.LeafID ≠ "")) := by
  unfold Layout
  simp only
  generalize ui.SetView "message-input" 0 (ui.Size.2 - 4) (0 + (ui.Size.1 - 1))
    (ui.Size.2 - 4 + 3) = e
  generalize layoutItems ui ui.Size.1
    (getItems t { CursorID := s.CursorID, ViewIDs := [], LeafID := s.LeafID }).1
    (ui.Size.2 - 4 - 1) [] = lv
  rcases e with _ | _ | _ <;> rcases lv with _ | views <;>
    first
      | (simp; done)
      | (by_cases hc : s.CursorID ∈ views <;> by_cases hl : s.LeafID = "" <;> simp [hc, hl])

/-- The leaf and cursor `Up` leaves: the leaf is kept, and the cursor is the
leaf or the non-empty Parent of a message the store holds for the cursor. -/
theorem Up_state_cases (t : Tree) (ui : Gui) (s : ThreadView) :
    (Up t ui s).1.LeafID = s.LeafID ∧
    ((Up t ui s).1.CursorID = s.LeafID ∨
      ∃ msg, t.Get (if s.CursorID = "" then s.LeafID else s.CursorID) = some msg ∧
        msg.Parent ≠ "" ∧ (Up t ui s).1.CursorID = msg.Parent) := by
  unfold Up
  by_cases hc : s.CursorID = ""
  · simp only [hc, if_true]
    cases hg : t.Get s.LeafID with
    | none => simp
    | some m =>
      by_cases hp : m.Parent = ""
      · simp [hp]
      · by_cases hv : m.Parent ∈ s.ViewIDs
        · simp [hp, hv]
        · simp [hp, hv]
  · simp only [hc, if_false]
    cases hg : t.Get s.CursorID with
    | none => simp
    | some m =>
      by_cases hp : m.Parent = ""
      · simp [hp]
      · by_cases hv : m.Parent ∈ s.ViewIDs
        · simp [hp, hv]
        · simp [hp, hv]

/-- In every reachable state an empty cursor comes with an empty leaf. -/
theorem Reachable_cursor_empty (P : Tree → Prop) (s : ThreadView) (hr : Reachable P s) :
    s.CursorID = "" → s.LeafID = "" := by
  induction hr with
  | newList => intro _; rfl
  | updateMessage t s id r _ _ hstep ih =>
    intro hc
    unfold UpdateMessage at hstep
    cases hg : t.Get id with
    | none => rw [hg] at hstep; simp at hstep
    | some msg =>
      rw [hg] at hstep
      simp only [Option.some.injEq] at hstep
      rw [← hstep] at hc ⊢
      by_cases h0 : s.CursorID = ""
      · have hl := ih h0
        simp_all
      · by_cases hcond : msg.Parent = s.LeafID ∨ s.LeafID = "" <;> simp_all
  | layout t ui s _ _ ih =>
    intro hc
    obtain ⟨hl, h | ⟨h, hne⟩⟩ := Layout_state_cases t ui s
    · rw [hl]; exact ih (h ▸ hc)
    · exact absurd (h ▸ hc) hne
  | up t ui s _ _ ih =>
    intro hc
    obtain ⟨hl, h | ⟨msg, _, hne, h⟩⟩ := Up_state_cases t ui s
    · rw [hl]; exact h ▸ hc
    · exact absurd (h ▸ hc) hne
  | down s _ ih =>
    intro hc
    unfold Down at hc ⊢
    by_cases h0 : s.CursorID = ""
    · have := ih h0
      simp_all
    · simp_all

/-- C9: in every navigation state reachable from `NewList` through the methods
of history.go, whatever the stores, when CursorID is empty and the store holds
M, `UpdateMessage M.UUID` returns with CursorID equal to the resulting LeafID;
a non-empty CursorID is left unchanged. -/
theorem UpdateMessage_cursor_defaults_to_leaf (t : Tree) (s : ThreadView) (M : Message)
    (hr : Reachable (fun _ => True) s) (hheld : t.Get M.UUID = some M) :
    ∃ s' qs, UpdateMessage t s M.UUID = some (s', qs) ∧
      (s.CursorID = "" → s'.CursorID = s'.LeafID) ∧
      (s.CursorID ≠ "" → s'.CursorID = s.CursorID) := by
  have hinv := Reachable_cursor_empty _ s hr
  unfold UpdateMessage
  rw [hheld]
  refine ⟨_, _, rfl, ?_, ?_⟩
  · intro hc
    have hl := hinv hc
    simp [hc, hl]
  · intro hc
    by_cases hcond : M.Parent = s.LeafID ∨ s.LeafID = "" <;> simp [hc, hcond]

/-- The state of `NewList` and a store holding the root A: after
`UpdateMessage A` the cursor and the leaf are both A. -/
theorem UpdateMessage_cursor_defaults_to_leaf_witness :
    (treeOf [msgA]).Get msgA.UUID = some msgA ∧
    UpdateMessage (treeOf [msgA]) NewList msgA.UUID = some (⟨"A", [], "A"⟩, []) ∧
    ∃ s' qs, UpdateMessage (treeOf [msgA]) NewList msgA.UUID = some (s', qs) ∧
      (NewList.CursorID = "" → s'.CursorID = s'.LeafID) ∧
      (NewList.CursorID ≠ "" → s'.CursorID = NewList.CursorID) :=
  ⟨by decide, by decide,
    UpdateMessage_cursor_defaults_to_leaf (treeOf [msgA]) NewList msgA
      Reachable.newList (by decide)⟩

/-- C5: `Up` reads the message of the cursor, the cursor being LeafID when
CursorID is empty (the first statement of `Up`). It sets CursorID to the
Parent of that message when the message is in the store, its Parent is
non-empty and its Parent is in ViewIDs. When the message is not in the store,
or its Parent is empty, or its Parent is not in ViewIDs, it returns nil and
CursorID is LeafID. LeafID and ViewIDs are unchanged in every case. -/
theorem Up_moves_or_resets (t : Tree) (ui : Gui) (s : ThreadView) :
    (Up t ui s).1.LeafID = s.LeafID ∧
    (Up t ui s).1.ViewIDs = s.ViewIDs ∧
    (∀ msg, t.Get (if s.CursorID = "" then s.LeafID else s.CursorID) = some msg →
      msg.Parent ≠ "" → msg.Parent ∈ s.ViewIDs →
      (Up t ui s).1.CursorID = msg.Parent ∧ (Up t ui s).2 = ui.SetCurrentView msg.Parent) ∧
    (t.Get (if s.CursorID = "" then s.LeafID else s.CursorID) = none →
      (Up t ui s).1.CursorID = s.LeafID ∧ (Up t ui s).2 = none) ∧
    (∀ msg, t.Get (if s.CursorID = "" then s.LeafID else s.CursorID) = some msg →
      msg.Parent = "" → (Up t ui s).1.CursorID = s.LeafID ∧ (Up t ui s).2 = none) ∧
    (∀ msg, t.Get (if s.CursorID = "" then s.LeafID else s.CursorID) = some msg →
      msg.Parent ∉ s.ViewIDs → (Up t ui s).1.CursorID = s.LeafID ∧ (Up t ui s).2 = none) := by
  unfold Up
  by_cases hc : s.CursorID = ""
  · simp only [hc, if_true]
    cases hg : t.Get s.LeafID with
    | none => simp
    | some m =>
      by_cases hp : m.Parent = ""
      · simp [hp]
      · by_cases hv : m.Parent ∈ s.ViewIDs
        · simp [hp, hv]
        · simp [hp, hv]
  · simp only [hc, if_false]
    cases hg : t.Get s.CursorID with
    | none => simp
    | some m =>
      by_cases hp : m.Parent = ""
      · simp [hp]
      · by_cases hv : m.Parent ∈ s.ViewIDs
        · simp [hp, hv]
        · simp [hp, hv]

/-- C10 as stated fails: with leaf B, its parent A a root, both drawn, and the
cursor at A, `Up` returns nil and moves the cursor to B. -/
theorem Up_at_root_counterexample :
    (treeOf [msgA, msgB]).Get "A" = some msgA ∧ msgA.Parent = "" ∧
    "A" ∈ (⟨"A", ["A", "B"], "B"⟩ : ThreadView).ViewIDs ∧
    Up (treeOf [msgA, msgB]) (okGui 80 24) ⟨"A", ["A", "B"], "B"⟩
      = (⟨"B", ["A", "B"], "B"⟩, none) ∧
    (Up (treeOf [msgA, msgB]) (okGui 80 24) ⟨"A", ["A", "B"], "B"⟩).1.CursorID ≠ "A" := by
  decide

/-- C10, amended: when the cursor (LeafID when CursorID is empty) is at a
message A that is in the store, is in ViewIDs and has empty Parent, `Up`
returns nil and sets CursorID to LeafID, leaving LeafID and ViewIDs as they
were; so the cursor stays at A exactly when A is the leaf. -/
theorem Up_at_root_resets (t : Tree) (ui : Gui) (s : ThreadView) (A : Message)
    (hget : t.Get (if s.CursorID = "" then s.LeafID else s.CursorID) = some A)
    (_hvis : (if s.CursorID = "" then s.LeafID else s.CursorID) ∈ s.ViewIDs)
    (hroot : A.Parent = "") :
    (Up t ui s).1.CursorID = s.LeafID ∧ (Up t ui s).2 = none ∧
    (Up t ui s).1.LeafID = s.LeafID ∧ (Up t ui s).1.ViewIDs = s.ViewIDs ∧
    ((Up t ui s).1.CursorID = (if s.CursorID = "" then s.LeafID else s.CursorID) ↔
      s.LeafID = (if s.CursorID = "" then s.LeafID else s.CursorID)) := by
  unfold Up
  by_cases hc : s.CursorID = ""
  · simp only [hc, if_true] at hget ⊢
    simp [hget, hroot]
  · simp only [hc, if_false] at hget ⊢
    simp [hget, hroot]

/-- The cursor at the root A, which is also the leaf: `Up` leaves it at A. -/
theorem Up_at_root_resets_witness :
    (treeOf [msgA]).Get "A" = some msgA ∧ "A" ∈ ["A"] ∧ msgA.Parent = "" ∧
    (Up (treeOf [msgA]) (okGui 80 24) ⟨"A", ["A"], "A"⟩).1.CursorID = "A" ∧
    (Up (treeOf [msgA]) (okGui 80 24) ⟨"A", ["A"], "A"⟩).2 = none :=
  ⟨by decide, by decide, by decide,
    (Up_at_root_resets (treeOf [msgA]) (okGui 80 24) ⟨"A", ["A"], "A"⟩ msgA
      (by decide) (by decide) (by decide)).1,
    (Up_at_root_resets (treeOf [msgA]) (okGui 80 24) ⟨"A", ["A"], "A"⟩ msgA
      (by decide) (by decide) (by decide)).2.1⟩

/-! ## The inbound pump and the welcome consumer -/

theorem pumpLoop_spec (evs : List ProtocolMessage) (live : Bool) (p : Pump)
    (h : evs.countP (fun e => e.Type_ = MessageType.WelcomeType) ≤ (if live then 1 else 0)) :
    (pumpLoop evs live p).msgs =
        p.msgs ++ (evs.filter (fun e => e.Type_ = MessageType.NewMessageType)).map
          (fun e => e.ChatMessage) ∧
      (pumpLoop evs live p).welcomes =
        p.welcomes ++ evs.filter (fun e => e.Type_ = MessageType.WelcomeType) ∧
      (pumpLoop evs live p).msgsClosed = true ∧
      (pumpLoop evs live p).blocked = p.blocked := by
  induction evs generalizing live p with
  | nil => simp [pumpLoop]
  | cons e rest ih =>
    cases hty : e.Type_ with
    | WelcomeType =>
      cases live with
      | false => simp [List.countP_cons, hty] at h
      | true =>
        have h2 : rest.countP (fun e => e.Type_ = MessageType.WelcomeType)
            ≤ (if false then 1 else 0) := by
          simp only [List.countP_cons, hty, decide_True, if_true] at h
          simp only [Bool.false_eq_true, if_false]
          omega
        have := ih false
          { p with welcomes := p.welcomes ++ [e], welcomesClosed := true } h2
        simp only [pumpLoop, hty, if_true]
        simp [this, List.filter_cons, hty]
    | NewMessageType =>
      have h2 : rest.countP (fun e => e.Type_ = MessageType.WelcomeType)
          ≤ (if live then 1 else 0) := by
        simpa [List.countP_cons, hty] using h
      have := ih live { p with msgs := p.msgs ++ [e.ChatMessage] } h2
      simp only [pumpLoop, hty]
      simp [this, List.filter_cons, hty]
    | QueryType =>
      have h2 : rest.countP (fun e => e.Type_ = MessageType.WelcomeType)
          ≤ (if live then 1 else 0) := by
        simpa [List.countP_cons, hty] using h
      have := ih live p h2
      simp only [pumpLoop, hty]
      simp [this, List.filter_cons, hty]
    | unknown code =>
      have h2 : rest.countP (fun e => e.Type_ = MessageType.WelcomeType)
          ≤ (if live then 1 else 0) := by
        simpa [List.countP_cons, hty] using h
      have := ih live p h2
      simp only [pumpLoop, hty]
      simp [this, List.filter_cons, hty]

/-- C8: when the events read from the connection hold at most one Welcome,
`HandleNewMessages` returns, having sent on `msgs` exactly the ChatMessages of
the NewMessage events in arrival order and closed `msgs`; it never parks. An
event that is neither a Welcome nor a NewMessage changes nothing of what is
sent on `msgs`, also for the events after it. -/
theorem HandleNewMessages_forwards (evs : List ProtocolMessage)
    (h : evs.countP (fun e => e.Type_ = MessageType.WelcomeType) ≤ 1) :
    (HandleNewMessages evs).msgs =
        (evs.filter (fun e => e.Type_ = MessageType.NewMessageType)).map
          (fun e => e.ChatMessage) ∧
      (HandleNewMessages evs).msgsClosed = true ∧
      (HandleNewMessages evs).blocked = false ∧
      (∀ pre post e, evs = pre ++ e :: post → e.Type_ ≠ MessageType.WelcomeType →
        e.Type_ ≠ MessageType.NewMessageType →
        (HandleNewMessages evs).msgs = (HandleNewMessages (pre ++ post)).msgs ∧
        (HandleNewMessages (pre ++ post)).msgsClosed = true) := by
  have main := pumpLoop_spec evs true ⟨[], false, [], false, false⟩ (by simpa using h)
  refine ⟨by simpa [HandleNewMessages] using main.1, main.2.2.1, main.2.2.2, ?_⟩
  intro pre post e hevs hw hn
  have h2 : (pre ++ post).countP (fun e => e.Type_ = MessageType.WelcomeType) ≤ 1 := by
    rw [hevs] at h
    simpa [List.countP_append, List.countP_cons, hw] using h
  have other := pumpLoop_spec (pre ++ post) true ⟨[], false, [], false, false⟩
    (by simpa using h2)
  refine ⟨?_, other.2.2.1⟩
  unfold HandleNewMessages
  rw [main.1, other.1, hevs]
  simp [List.filter_cons, hn]

/-- One Welcome between two messages, with a Query event in between: both
messages reach `msgs`, in order, and `msgs` is closed. -/
theorem HandleNewMessages_forwards_witness :
    HandleNewMessages
      [⟨MessageType.NewMessageType, "", [], some ⟨"M1", "", "one"⟩⟩,
        ⟨MessageType.WelcomeType, "R", ["X"], none⟩,
        ⟨MessageType.QueryType, "", [], none⟩,
        ⟨MessageType.NewMessageType, "", [], some ⟨"M2", "M1", "two"⟩⟩]
      = ⟨[⟨MessageType.WelcomeType, "R", ["X"], none⟩], true,
          [some ⟨"M1", "", "one"⟩, some ⟨"M2", "M1", "two"⟩], true, false⟩ ∧
    (HandleNewMessages
      [⟨MessageType.NewMessageType, "", [], some ⟨"M1", "", "one"⟩⟩,
        ⟨MessageType.WelcomeType, "R", ["X"], none⟩,
        ⟨MessageType.QueryType, "", [], none⟩,
        ⟨MessageType.NewMessageType, "", [], some ⟨"M2", "M1", "two"⟩⟩]).msgsClosed = true :=
  ⟨by decide,
    (HandleNewMessages_forwards
      [⟨MessageType.NewMessageType, "", [], some ⟨"M1", "", "one"⟩⟩,
        ⟨MessageType.WelcomeType, "R", ["X"], none⟩,
        ⟨MessageType.QueryType, "", [], none⟩,
        ⟨MessageType.NewMessageType, "", [], some ⟨"M2", "M1", "two"⟩⟩] (by decide)).2.1⟩

/-- C6 on the code: of two Welcomes followed by a NewMessage, the first
Welcome is sent on `welcomes`, which is then closed and set to nil; at the
second the goroutine parks for ever in the send on the nil channel, so the
NewMessage is never sent on `msgs` and `msgs` is never closed. -/
theorem HandleNewMessages_second_welcome_blocks :
    HandleNewMessages
      [⟨MessageType.WelcomeType, "R", ["X"], none⟩,
        ⟨MessageType.WelcomeType, "R", ["X"], none⟩,
        ⟨MessageType.NewMessageType, "", [], some ⟨"M", "R", "late"⟩⟩]
      = ⟨[⟨MessageType.WelcomeType, "R", ["X"], none⟩], true, [], false, true⟩ := by
  decide

theorem sendRecents_eq_filter (recents : List String) :
    sendRecents recents = recents.filter (fun id => id ≠ "") := by
  induction recents with
  | nil => rfl
  | cons id rest ih =>
    by_cases h : id = "" <;> simp [sendRecents, List.filter_cons, h, ih]

/-- C7: for a Welcome with root r and recent list rs, the welcome consumer
sends on `queries` r, followed by the non-empty elements of rs in their
order, and nothing else. For root R and recent X, Y and the empty id it sends
R, X, Y. -/
theorem handleWelcome_queries (message : ProtocolMessage) :
    handleWelcome message = message.Root :: message.Recent.filter (fun id => id ≠ "") ∧
    handleWelcome ⟨MessageType.WelcomeType, "R", ["X", "Y", ""], none⟩ = ["R", "X", "Y"] := by
  refine ⟨?_, by decide⟩
  simp only [handleWelcome, sendRecents_eq_filter]

/-- The cursor at the leaf B, whose parent A is drawn: `Up` moves it to A. -/
theorem Up_moves_or_resets_witness :
    (treeOf [msgA, msgB]).Get "B" = some msgB ∧
    (Up (treeOf [msgA, msgB]) (okGui 80 24) ⟨"B", ["A", "B"], "B"⟩).1.CursorID = "A" :=
  ⟨by decide,
    ((Up_moves_or_resets (treeOf [msgA, msgB]) (okGui 80 24) ⟨"B", ["A", "B"], "B"⟩).2.2.1
      msgB (by decide) (by decide) (by decide)).1⟩

end Pergola
